import Mathlib

/-!
Shallow embedding of the minigrad scalar autodiff engine (src/lib.rs).

A Rust `Value` is an `Rc<Value_>` where `Value_` holds a mutable `data : f32`
cell, a unique `id : usize`, an immutable `op : Op` (the operation and shared
references to the operand nodes), and a mutable `grad : f32` cell.

Embedding choices:
  * the immutable part of a node (its `id` and its `op` with operand
    references) is the inductive `Value`; the mutable cells (`data`, `grad`)
    live in a state `BuildState` as maps from `id` to the cell contents,
    together with the `get_id` counter (Rust's `static COUNTER`, which starts
    at 1);
  * `f32` scalars are modelled as `ℚ`; the `f32::exp` and `f32::tanh`
    intrinsics are abstract parameters `fexp ftanh : ℚ → ℚ` threaded through
    the definitions that use them;
  * the `assert_eq!` in `Neuron::apply` (a panic) is modelled by returning
    `Option`, `none` on length mismatch.
-/

/-- Graph node: the immutable `id` together with the `Op` enum of lib.rs
(`None`, `Plus(a, b)`, `Mul(a, b)`, `Tanh(a)`, `Sub(a, b)`), with the operand
node references stored structurally. -/
inductive Value : Type where
  | None (id : Nat)
  | Plus (id : Nat) (v1 v2 : Value)
  | Mul (id : Nat) (v1 v2 : Value)
  | Tanh (id : Nat) (v1 : Value)
  | Sub (id : Nat) (v1 v2 : Value)
deriving DecidableEq, Repr

/-- Projection of the `id` field of `Value_`. -/
def Value.id : Value → Nat
  | .None i => i
  | .Plus i _ _ => i
  | .Mul i _ _ => i
  | .Tanh i _ => i
  | .Sub i _ _ => i

/-- Operand references recorded in a node's `op` field. -/
def operands : Value → List Value
  | .None _ => []
  | .Plus _ v1 v2 => [v1, v2]
  | .Mul _ v1 v2 => [v1, v2]
  | .Tanh _ v1 => [v1]
  | .Sub _ v1 v2 => [v1, v2]

/-- All nodes reachable from a node via operand edges (the node itself
included), with multiplicity. -/
def subvalues : Value → List Value
  | .None i => [.None i]
  | .Plus i v1 v2 => .Plus i v1 v2 :: (subvalues v1 ++ subvalues v2)
  | .Mul i v1 v2 => .Mul i v1 v2 :: (subvalues v1 ++ subvalues v2)
  | .Tanh i v1 => .Tanh i v1 :: subvalues v1
  | .Sub i v1 v2 => .Sub i v1 v2 :: (subvalues v1 ++ subvalues v2)

/-- Structural size of a node, used for acyclicity arguments: a node is
strictly larger than each of its operands. -/
def Value.size : Value → Nat
  | .None _ => 1
  | .Plus _ v1 v2 => v1.size + v2.size + 1
  | .Mul _ v1 v2 => v1.size + v2.size + 1
  | .Tanh _ v1 => v1.size + 1
  | .Sub _ v1 v2 => v1.size + v2.size + 1

/-- The ids of a list of nodes. -/
def ids (l : List Value) : List Nat := l.map Value.id

/-- A graph rooted at `R` is coherent when equal ids mean equal nodes among
the nodes reachable from `R`. Every graph actually built by the Rust code is
coherent because `get_id` hands out a fresh id at every construction. -/
def Coherent (R : Value) : Prop :=
  ∀ u ∈ subvalues R, ∀ w ∈ subvalues R, u.id = w.id → u = w

instance (R : Value) : Decidable (Coherent R) := by
  unfold Coherent; infer_instance

/-- Mutable state of the engine: the `get_id` counter together with the
contents of every node's `data` and `grad` `RefCell`, keyed by node id. -/
structure BuildState where
  counter : Nat
  data : Nat → ℚ
  grad : Nat → ℚ

/-- Pointwise update of an id-indexed cell map. -/
def upd (f : Nat → ℚ) (i : Nat) (x : ℚ) : Nat → ℚ :=
  fun j => if j = i then x else f j

/-- Reading the state at process start: the counter starts at 1
(`AtomicUsize::new(1)`); no cell has been written yet. -/
def initState : BuildState := ⟨1, fun _ => 0, fun _ => 0⟩

/-- The `get_id` helper: `COUNTER.fetch_add(1)` returns the old counter. -/
def get_id (s : BuildState) : Nat × BuildState :=
  (s.counter, { s with counter := s.counter + 1 })

/-- The `Value_::new(data)` constructor: draws a fresh id, initializes that
node's `data` cell to `data` and its `grad` cell to 0; returns the fresh id. -/
def Value_new (d : ℚ) (s : BuildState) : Nat × BuildState :=
  let p := get_id s
  (p.1, { p.2 with data := upd p.2.data p.1 d, grad := upd p.2.grad p.1 0 })

/-- The `Value::new(data)` constructor: a fresh leaf (`op = None`). -/
def Value.new (d : ℚ) (s : BuildState) : Value × BuildState :=
  let p := Value_new d s
  (Value.None p.1, p.2)

/-- Value of `tanh` as computed by `Value::tanh`:
`((2.0 * d).exp() - 1.0) / ((2.0 * d).exp() + 1.0)`. -/
def tanh_value (fexp : ℚ → ℚ) (x : ℚ) : ℚ :=
  (fexp (2 * x) - 1) / (fexp (2 * x) + 1)

/-- The `Value::tanh` builder. -/
def Value.tanh (fexp : ℚ → ℚ) (a : Value) (s : BuildState) : Value × BuildState :=
  let d := s.data a.id
  let t := tanh_value fexp d
  let p := Value_new t s
  (Value.Tanh p.1 a, p.2)

/-- The `Add` operator impl for `&Value`. -/
def Value.add (a b : Value) (s : BuildState) : Value × BuildState :=
  let d := s.data a.id + s.data b.id
  let p := Value_new d s
  (Value.Plus p.1 a b, p.2)

/-- The `Mul` operator impl for `&Value`. -/
def Value.mul (a b : Value) (s : BuildState) : Value × BuildState :=
  let d := s.data a.id * s.data b.id
  let p := Value_new d s
  (Value.Mul p.1 a b, p.2)

/-- The `Sub` operator impl for `&Value`. -/
def Value.sub (a b : Value) (s : BuildState) : Value × BuildState :=
  let d := s.data a.id - s.data b.id
  let p := Value_new d s
  (Value.Sub p.1 a b, p.2)

/-- The recursive `build_topo` helper of `topological_order`: depth-first
walk with a visited set of ids, marking a node visited before recursing into
its operands and appending the node after them (post-order). -/
def buildTopo (v : Value) (visited : List Nat) (order : List Value) :
    List Nat × List Value :=
  if v.id ∈ visited then (visited, order)
  else
    match v with
    | .None i => (i :: visited, order ++ [Value.None i])
    | .Plus i v1 v2 =>
        let p1 := buildTopo v1 (i :: visited) order
        let p2 := buildTopo v2 p1.1 p1.2
        (p2.1, p2.2 ++ [Value.Plus i v1 v2])
    | .Mul i v1 v2 =>
        let p1 := buildTopo v1 (i :: visited) order
        let p2 := buildTopo v2 p1.1 p1.2
        (p2.1, p2.2 ++ [Value.Mul i v1 v2])
    | .Tanh i v1 =>
        let p1 := buildTopo v1 (i :: visited) order
        (p1.1, p1.2 ++ [Value.Tanh i v1])
    | .Sub i v1 v2 =>
        let p1 := buildTopo v1 (i :: visited) order
        let p2 := buildTopo v2 p1.1 p1.2
        (p2.1, p2.2 ++ [Value.Sub i v1 v2])

/-- `topological_order(value)`: operands before the nodes that use them. -/
def topological_order (v : Value) : List Value :=
  (buildTopo v [] []).2

/-- `reverse_topological_order(value)`: root first, leaves last. -/
def reverse_topological_order (v : Value) : List Value :=
  (topological_order v).reverse

/-- One iteration of the loop body of `calculate_grad`: dispatch on `v.op`
and accumulate (`+=`) the local derivative into each operand's `grad` cell,
one statement at a time, exactly as the Rust match arms do. -/
def gradStep (ftanh : ℚ → ℚ) (s : BuildState) (v : Value) : BuildState :=
  match v with
  | .None _ => s
  | .Plus i v1 v2 =>
      let s1 := { s with grad := upd s.grad v1.id (s.grad v1.id + s.grad i) }
      { s1 with grad := upd s1.grad v2.id (s1.grad v2.id + s1.grad i) }
  | .Mul i v1 v2 =>
      let s1 := { s with
        grad := upd s.grad v1.id (s.grad v1.id + s.grad i * s.data v2.id) }
      { s1 with
        grad := upd s1.grad v2.id (s1.grad v2.id + s1.grad i * s1.data v1.id) }
  | .Tanh i v1 =>
      let d := s.data v1.id
      let localGrad := 1 - (ftanh d) ^ 2
      let g := s.grad i * localGrad
      { s with grad := upd s.grad v1.id (s.grad v1.id + g) }
  | .Sub i v1 v2 =>
      let s1 := { s with grad := upd s.grad v1.id (s.grad v1.id + s.grad i) }
      { s1 with grad := upd s1.grad v2.id (s1.grad v2.id + (- s1.grad i)) }

/-- `calculate_grad(root)`: seed `root.grad = 1.0`, then walk the reverse
topological order applying the local derivative rules. -/
def calculate_grad (ftanh : ℚ → ℚ) (root : Value) (s : BuildState) : BuildState :=
  let s0 := { s with grad := upd s.grad root.id 1 }
  (reverse_topological_order root).foldl (gradStep ftanh) s0

/-- A `Neuron`: weight nodes and a bias node. (`Neuron::new` fills them with
random leaves; the claims quantify over the weights, so randomness is not
modelled.) -/
structure Neuron where
  weights : List Value
  bias : Value

/-- Loop body of `Neuron::apply`: `s = &s + &(xi * wi)` — build the product
node, then the sum node. -/
def neuronStep (p : Value × BuildState) (xw : Value × Value) : Value × BuildState :=
  let m := Value.mul xw.1 xw.2 p.2
  Value.add p.1 m.1 m.2

/-- `Neuron::apply(x)`: asserts `x.len() == weights.len()` (modelled as
`none`), folds `s = &s + &(xi * wi)` over `zip(x, weights)` starting from a
fresh zero leaf, adds the bias and applies `tanh`. -/
def Neuron.apply (fexp : ℚ → ℚ) (n : Neuron) (x : List Value) (s : BuildState) :
    Option (Value × BuildState) :=
  if x.length = n.weights.length then
    let p0 := Value.new 0 s
    let pf := (x.zip n.weights).foldl neuronStep p0
    let pb := Value.add pf.1 n.bias pf.2
    some (Value.tanh fexp pb.1 pb.2)
  else
    none

/-- Detects that a node is not a `Tanh` node. -/
def notTanhNode : Value → Bool
  | .Tanh _ _ => false
  | _ => true

/-- A list of nodes is topologically sorted when each node's operands all
have their ids among the ids of the strictly earlier elements. -/
def OkOrder (l : List Value) : Prop :=
  ∀ (i : Nat) (h : i < l.length), ∀ u ∈ operands l[i],
    Value.id u ∈ ids (l.take i)

/-- Invariant carried through `build_topo`: the visited set is exactly the
ids already emitted plus the `gray` ids (nodes whose call is still on the
stack); the emitted order is topologically sorted, has pairwise distinct ids,
and contains only nodes reachable from `R`. -/
def DFSInv (R : Value) (gray visited : List Nat) (order : List Value) : Prop :=
  (∀ j, j ∈ visited ↔ j ∈ ids order ∨ j ∈ gray) ∧
  OkOrder order ∧
  (ids order).Nodup ∧
  (∀ w ∈ order, w ∈ subvalues R)

/-- Specification of one `build_topo` call on node `v`: it preserves the
invariant, only appends to the order, emits the id of every node reachable
from `v`, and emits no id that is neither already present nor reachable
from `v`. -/
def BTSpec (R v : Value) : Prop :=
  ∀ (visited : List Nat) (order : List Value) (gray : List Nat),
    DFSInv R gray visited order →
    (∀ g ∈ gray, ∀ u ∈ subvalues v, Value.id u ≠ g) →
    (∃ Δ, (buildTopo v visited order).2 = order ++ Δ) ∧
    DFSInv R gray (buildTopo v visited order).1 (buildTopo v visited order).2 ∧
    (∀ u ∈ subvalues v, Value.id u ∈ ids (buildTopo v visited order).2) ∧
    (∀ j ∈ ids (buildTopo v visited order).2,
      j ∈ ids order ∨ ∃ u ∈ subvalues v, Value.id u = j)


/-! ### Concrete graphs and states used to instantiate the theorems -/

/-- Example state with a nondegenerate cell content: ten ids already consumed,
`data j = j`, `grad j = j + 1`. -/
def exState : BuildState := ⟨10, fun j => (j : ℚ), fun j => (j : ℚ) + 1⟩

/-- The end-to-end scenario of the spec: `a = leaf(-2.0)`. -/
def exA : Value × BuildState := Value.new (-2) initState

/-- Scenario: `b = leaf(3.0)`. -/
def exB : Value × BuildState := Value.new 3 exA.2

/-- Scenario: `d = mul(a, b)`. -/
def exD : Value × BuildState := Value.mul exA.1 exB.1 exB.2

/-- Scenario: `e = add(a, b)`. -/
def exE : Value × BuildState := Value.add exA.1 exB.1 exD.2

/-- Scenario: `f = mul(d, e)`. -/
def exF : Value × BuildState := Value.mul exD.1 exE.1 exE.2

/-- A small coherent DAG with a shared leaf: `mul(plus(l1, l2), l1)`. -/
def exG : Value :=
  Value.Mul 4 (Value.Plus 3 (Value.None 1) (Value.None 2)) (Value.None 1)

/-- A coherent diamond: both operands of the root share both leaves. -/
def exG2 : Value :=
  Value.Mul 5 (Value.Plus 3 (Value.None 1) (Value.None 2))
    (Value.Sub 4 (Value.None 1) (Value.None 2))

/-- A neuron with three concrete weight nodes and a bias node. -/
def exNeuron : Neuron :=
  ⟨[Value.None 1, Value.None 2, Value.None 3], Value.None 4⟩

/-! Batteries marks the rational operations irreducible; the concrete
instantiations below evaluate them, so restore default reducibility. -/
attribute [local semireducible] Rat.mul Rat.add Rat.sub Rat.inv

/-! ### Structural lemmas about `subvalues`, `operands` and `size` -/

theorem self_mem_subvalues (v : Value) : v ∈ subvalues v := by
  cases v <;> simp [subvalues]

theorem mem_subvalues_cases {u v : Value} (h : u ∈ subvalues v) :
    u = v ∨ ∃ w ∈ operands v, u ∈ subvalues w := by
  cases v <;> simp [subvalues, operands] at h ⊢ <;> tauto

theorem subvalues_subset_of_operand {w v : Value} (h : w ∈ operands v) :
    ∀ u ∈ subvalues w, u ∈ subvalues v := by
  intro u hu
  cases v <;> simp [operands] at h <;>
    first
    | (rcases h with rfl | rfl <;> simp [subvalues] <;> tauto)
    | (subst h; simp [subvalues]; tauto)

theorem operand_mem_subvalues {w v : Value} (h : w ∈ operands v) :
    w ∈ subvalues v :=
  subvalues_subset_of_operand h w (self_mem_subvalues w)

theorem size_lt_of_operand {u v : Value} (h : u ∈ operands v) :
    u.size < v.size := by
  cases v <;> simp [operands] at h <;>
    first
    | (rcases h with rfl | rfl <;> simp [Value.size] <;> omega)
    | (subst h; simp [Value.size])

theorem subvalues_trans_aux :
    ∀ n, ∀ R : Value, R.size < n → ∀ u w : Value,
      u ∈ subvalues w → w ∈ subvalues R → u ∈ subvalues R := by
  intro n
  induction n with
  | zero => intro R hR; omega
  | succ n ih =>
      intro R hR u w h1 h2
      rcases mem_subvalues_cases h2 with rfl | ⟨o, ho, hwo⟩
      · exact h1
      · have hsz : o.size < n := by
          have := size_lt_of_operand ho; omega
        exact subvalues_subset_of_operand ho u (ih o hsz u w h1 hwo)

theorem subvalues_trans {u w R : Value} (h1 : u ∈ subvalues w)
    (h2 : w ∈ subvalues R) : u ∈ subvalues R :=
  subvalues_trans_aux (R.size + 1) R (by omega) u w h1 h2

theorem size_le_of_mem_subvalues_aux :
    ∀ n, ∀ v : Value, v.size < n → ∀ u : Value,
      u ∈ subvalues v → u.size ≤ v.size := by
  intro n
  induction n with
  | zero => intro v hv; omega
  | succ n ih =>
      intro v hv u h
      rcases mem_subvalues_cases h with rfl | ⟨o, ho, huo⟩
      · exact le_refl _
      · have hlt := size_lt_of_operand ho
        have := ih o (by omega) u huo
        omega

theorem size_le_of_mem_subvalues {u v : Value} (h : u ∈ subvalues v) :
    u.size ≤ v.size :=
  size_le_of_mem_subvalues_aux (v.size + 1) v (by omega) u h

/-- In a coherent graph a node's id never occurs in the subtree of one of its
operands: that would make the node an ancestor of itself. -/
theorem operand_subtree_id_ne {R v w u : Value} (hcoh : Coherent R)
    (hv : v ∈ subvalues R) (hw : w ∈ operands v) (hu : u ∈ subvalues w) :
    Value.id u ≠ Value.id v := by
  intro he
  have huv : u ∈ subvalues v := subvalues_subset_of_operand hw u hu
  have huR : u ∈ subvalues R := subvalues_trans huv hv
  have heq : u = v := hcoh u huR v hv he
  subst heq
  have h1 : u.size ≤ w.size := size_le_of_mem_subvalues hu
  have h2 : w.size < u.size := size_lt_of_operand hw
  omega

/-! ### Small computation lemmas -/

@[simp] theorem Value.id_None (i : Nat) : (Value.None i).id = i := rfl

@[simp] theorem Value.id_Plus (i : Nat) (a b : Value) :
    (Value.Plus i a b).id = i := rfl

@[simp] theorem Value.id_Mul (i : Nat) (a b : Value) :
    (Value.Mul i a b).id = i := rfl

@[simp] theorem Value.id_Tanh (i : Nat) (a : Value) :
    (Value.Tanh i a).id = i := rfl

@[simp] theorem Value.id_Sub (i : Nat) (a b : Value) :
    (Value.Sub i a b).id = i := rfl

theorem upd_same (f : Nat → ℚ) (i : Nat) (x : ℚ) : upd f i x i = x := by
  simp [upd]

theorem upd_ne (f : Nat → ℚ) (i : Nat) (x : ℚ) {j : Nat} (h : j ≠ i) :
    upd f i x j = f j := by
  simp [upd, h]

theorem ids_append (l1 l2 : List Value) : ids (l1 ++ l2) = ids l1 ++ ids l2 := by
  simp [ids]

/-! ### Elements pushed by `build_topo` are reachable nodes -/

theorem buildTopo_mem :
    ∀ (v : Value) (visited : List Nat) (order : List Value),
      ∀ w ∈ (buildTopo v visited order).2, w ∈ order ∨ w ∈ subvalues v := by
  intro v
  induction v with
  | None i =>
      intro visited order w hw
      by_cases h : i ∈ visited <;> simp [buildTopo, h] at hw
      · exact Or.inl hw
      · rcases hw with hw | rfl
        · exact Or.inl hw
        · exact Or.inr (self_mem_subvalues _)
  | Plus i v1 v2 ih1 ih2 =>
      intro visited order w hw
      by_cases h : i ∈ visited <;> simp [buildTopo, h] at hw
      · exact Or.inl hw
      · rcases hw with hw2 | rfl
        · rcases ih2 _ _ w hw2 with hw1 | hw1
          · rcases ih1 _ _ w hw1 with h0 | h0
            · exact Or.inl h0
            · exact Or.inr (subvalues_subset_of_operand (by simp [operands]) w h0)
          · exact Or.inr (subvalues_subset_of_operand (by simp [operands]) w hw1)
        · exact Or.inr (self_mem_subvalues _)
  | Mul i v1 v2 ih1 ih2 =>
      intro visited order w hw
      by_cases h : i ∈ visited <;> simp [buildTopo, h] at hw
      · exact Or.inl hw
      · rcases hw with hw2 | rfl
        · rcases ih2 _ _ w hw2 with hw1 | hw1
          · rcases ih1 _ _ w hw1 with h0 | h0
            · exact Or.inl h0
            · exact Or.inr (subvalues_subset_of_operand (by simp [operands]) w h0)
          · exact Or.inr (subvalues_subset_of_operand (by simp [operands]) w hw1)
        · exact Or.inr (self_mem_subvalues _)
  | Tanh i v1 ih1 =>
      intro visited order w hw
      by_cases h : i ∈ visited <;> simp [buildTopo, h] at hw
      · exact Or.inl hw
      · rcases hw with hw1 | rfl
        · rcases ih1 _ _ w hw1 with h0 | h0
          · exact Or.inl h0
          · exact Or.inr (subvalues_subset_of_operand (by simp [operands]) w h0)
        · exact Or.inr (self_mem_subvalues _)
  | Sub i v1 v2 ih1 ih2 =>
      intro visited order w hw
      by_cases h : i ∈ visited <;> simp [buildTopo, h] at hw
      · exact Or.inl hw
      · rcases hw with hw2 | rfl
        · rcases ih2 _ _ w hw2 with hw1 | hw1
          · rcases ih1 _ _ w hw1 with h0 | h0
            · exact Or.inl h0
            · exact Or.inr (subvalues_subset_of_operand (by simp [operands]) w h0)
          · exact Or.inr (subvalues_subset_of_operand (by simp [operands]) w hw1)
        · exact Or.inr (self_mem_subvalues _)

theorem topological_order_mem_subvalues {root w : Value}
    (hw : w ∈ topological_order root) : w ∈ subvalues root := by
  rcases buildTopo_mem root [] [] w hw with h | h
  · simp at h
  · exact h

/-! ### Frame properties of one gradient step -/

theorem gradStep_data (ftanh : ℚ → ℚ) (s : BuildState) (v : Value) :
    (gradStep ftanh s v).data = s.data := by
  cases v <;> rfl

theorem gradStep_counter (ftanh : ℚ → ℚ) (s : BuildState) (v : Value) :
    (gradStep ftanh s v).counter = s.counter := by
  cases v <;> rfl

/-- A gradient step only writes the `grad` cells of the operands of the node
being processed. -/
theorem gradStep_grad_eq (ftanh : ℚ → ℚ) (s : BuildState) (v : Value) (k : Nat)
    (h : ∀ u ∈ operands v, Value.id u ≠ k) :
    (gradStep ftanh s v).grad k = s.grad k := by
  cases v with
  | None i => rfl
  | Plus i v1 v2 =>
      have h1 : v1.id ≠ k := h v1 (by simp [operands])
      have h2 : v2.id ≠ k := h v2 (by simp [operands])
      simp [gradStep, upd_ne _ _ _ (fun he => h2 he.symm),
        upd_ne _ _ _ (fun he => h1 he.symm)]
  | Mul i v1 v2 =>
      have h1 : v1.id ≠ k := h v1 (by simp [operands])
      have h2 : v2.id ≠ k := h v2 (by simp [operands])
      simp [gradStep, upd_ne _ _ _ (fun he => h2 he.symm),
        upd_ne _ _ _ (fun he => h1 he.symm)]
  | Tanh i v1 =>
      have h1 : v1.id ≠ k := h v1 (by simp [operands])
      simp [gradStep, upd_ne _ _ _ (fun he => h1 he.symm)]
  | Sub i v1 v2 =>
      have h1 : v1.id ≠ k := h v1 (by simp [operands])
      have h2 : v2.id ≠ k := h v2 (by simp [operands])
      simp [gradStep, upd_ne _ _ _ (fun he => h2 he.symm),
        upd_ne _ _ _ (fun he => h1 he.symm)]

theorem foldl_gradStep_data (ftanh : ℚ → ℚ) (l : List Value) :
    ∀ s : BuildState, (l.foldl (gradStep ftanh) s).data = s.data := by
  induction l with
  | nil => intro s; rfl
  | cons v t ih =>
      intro s
      simp only [List.foldl_cons]
      rw [ih, gradStep_data]

theorem foldl_gradStep_counter (ftanh : ℚ → ℚ) (l : List Value) :
    ∀ s : BuildState, (l.foldl (gradStep ftanh) s).counter = s.counter := by
  induction l with
  | nil => intro s; rfl
  | cons v t ih =>
      intro s
      simp only [List.foldl_cons]
      rw [ih, gradStep_counter]

theorem foldl_gradStep_grad_eq (ftanh : ℚ → ℚ) (l : List Value) (k : Nat)
    (h : ∀ v ∈ l, ∀ u ∈ operands v, Value.id u ≠ k) :
    ∀ s : BuildState, (l.foldl (gradStep ftanh) s).grad k = s.grad k := by
  induction l with
  | nil => intro s; rfl
  | cons v t ih =>
      intro s
      simp only [List.foldl_cons]
      rw [ih (fun w hw => h w (by simp [hw])),
        gradStep_grad_eq _ _ _ _ (h v (by simp))]

/-! ### The gradient walk does not consult `ftanh` on tanh-free graphs -/

theorem gradStep_congr (f g : ℚ → ℚ) (s : BuildState) (v : Value)
    (h : notTanhNode v = true) : gradStep f s v = gradStep g s v := by
  cases v <;> first | rfl | simp [notTanhNode] at h

theorem foldl_gradStep_congr (f g : ℚ → ℚ) (l : List Value)
    (h : l.all notTanhNode = true) :
    ∀ s : BuildState, l.foldl (gradStep f) s = l.foldl (gradStep g) s := by
  induction l with
  | nil => intro s; rfl
  | cons v t ih =>
      intro s
      simp only [List.all_cons, Bool.and_eq_true] at h
      simp only [List.foldl_cons]
      rw [gradStep_congr f g s v h.1]
      exact ih h.2 _

theorem calculate_grad_congr (f g : ℚ → ℚ) (root : Value) (s : BuildState)
    (h : (reverse_topological_order root).all notTanhNode = true) :
    calculate_grad f root s = calculate_grad g root s :=
  foldl_gradStep_congr f g _ h _

/-! ### Topological sortedness -/

theorem okOrder_nil : OkOrder [] := by
  intro i h
  simp at h

theorem okOrder_append (l : List Value) (v : Value) (hl : OkOrder l)
    (hv : ∀ u ∈ operands v, Value.id u ∈ ids l) : OkOrder (l ++ [v]) := by
  intro i h u hu
  rcases Nat.lt_or_ge i l.length with hi | hi
  · rw [List.getElem_append_left hi] at hu
    rw [List.take_append_of_le_length (Nat.le_of_lt hi)]
    exact hl i hi u hu
  · have hlen : i = l.length := by
      simp at h
      omega
    subst hlen
    rw [List.getElem_append_right (le_refl _)] at hu
    simp at hu
    rw [List.take_left]
    exact hv u hu

/-- In a coherent, topologically sorted list of reachable nodes, the whole
operand subtree of every element has its ids in the list. -/
theorem okOrder_closure {R : Value} (hcoh : Coherent R) {order : List Value}
    (hsub : ∀ w ∈ order, w ∈ subvalues R) (hok : OkOrder order) :
    ∀ n, ∀ w ∈ order, w.size < n → ∀ u ∈ subvalues w,
      Value.id u ∈ ids order := by
  intro n
  induction n with
  | zero =>
      intro w hw hsz
      omega
  | succ n ih =>
      intro w hw hsz u hu
      rcases mem_subvalues_cases hu with heq | ⟨o, ho, huo⟩
      · subst heq
        exact List.mem_map.2 ⟨_, hw, rfl⟩
      · obtain ⟨j, hj, hje⟩ := List.getElem_of_mem hw
        have hoid : Value.id o ∈ ids (order.take j) := by
          apply hok j hj
          rw [hje]
          exact ho
        have hoid2 : Value.id o ∈ ids order :=
          List.map_subset _ (List.take_subset _ _) hoid
        obtain ⟨o2, ho2, ho2e⟩ := List.mem_map.1 hoid2
        have hoR : o ∈ subvalues R :=
          subvalues_trans (operand_mem_subvalues ho) (hsub w hw)
        have heq2 : o2 = o := hcoh o2 (hsub o2 ho2) o hoR ho2e
        rw [heq2] at ho2
        have hosz : o.size < n := by
          have h1 := size_lt_of_operand ho
          omega
        exact ih o ho2 hosz u huo

/-! ### The depth-first-search invariant -/

/-- Helper for the early-return branch: the node was already visited, so it
is already in the order (gray ids cannot occur below `v`), and the whole
subtree below it was already emitted. -/
theorem bt_visited {R v : Value} (hcoh : Coherent R) (hv : v ∈ subvalues R)
    (visited : List Nat) (order : List Value) (gray : List Nat)
    (hinv : DFSInv R gray visited order)
    (hfresh : ∀ g ∈ gray, ∀ u ∈ subvalues v, Value.id u ≠ g)
    (hmem : Value.id v ∈ visited) :
    (∃ Δ, order = order ++ Δ) ∧
    DFSInv R gray visited order ∧
    (∀ u ∈ subvalues v, Value.id u ∈ ids order) ∧
    (∀ j ∈ ids order, j ∈ ids order ∨ ∃ u ∈ subvalues v, Value.id u = j) := by
  obtain ⟨hviz, hok, hnd, hels⟩ := hinv
  have hvord : v ∈ order := by
    rcases (hviz (Value.id v)).1 hmem with h | h
    · obtain ⟨w, hw, hwid⟩ := List.mem_map.1 h
      have heq : w = v := hcoh w (hels w hw) v hv hwid
      rw [heq] at hw
      exact hw
    · exact absurd rfl (hfresh _ h v (self_mem_subvalues v))
  refine ⟨⟨[], by simp⟩, ⟨hviz, hok, hnd, hels⟩, ?_, fun j hj => Or.inl hj⟩
  intro u hu
  exact okOrder_closure hcoh hels hok (v.size + 1) v hvord (by omega) u hu

/-- Helper for a freshly visited node with two operands (the `Plus`, `Mul`
and `Sub` arms of `build_topo`). -/
theorem bt_bin {R : Value} (hcoh : Coherent R) (i : Nat) (v1 v2 vnode : Value)
    (hvid : Value.id vnode = i)
    (hops : operands vnode = [v1, v2])
    (hsubv : subvalues vnode = vnode :: (subvalues v1 ++ subvalues v2))
    (hvR : vnode ∈ subvalues R)
    (sp1 : BTSpec R v1) (sp2 : BTSpec R v2)
    (visited : List Nat) (order : List Value) (gray : List Nat)
    (hinv : DFSInv R gray visited order)
    (hfresh : ∀ g ∈ gray, ∀ u ∈ subvalues vnode, Value.id u ≠ g)
    (hmem : i ∉ visited)
    (p1 p2 : List Nat × List Value)
    (hp1 : p1 = buildTopo v1 (i :: visited) order)
    (hp2 : p2 = buildTopo v2 p1.1 p1.2) :
    (∃ Δ, p2.2 ++ [vnode] = order ++ Δ) ∧
    DFSInv R gray p2.1 (p2.2 ++ [vnode]) ∧
    (∀ u ∈ subvalues vnode, Value.id u ∈ ids (p2.2 ++ [vnode])) ∧
    (∀ j ∈ ids (p2.2 ++ [vnode]),
      j ∈ ids order ∨ ∃ u ∈ subvalues vnode, Value.id u = j) := by
  obtain ⟨hviz, hok, hnd, hels⟩ := hinv
  have hv1ops : v1 ∈ operands vnode := by rw [hops]; simp
  have hv2ops : v2 ∈ operands vnode := by rw [hops]; simp
  have hv1R : v1 ∈ subvalues R :=
    subvalues_trans (operand_mem_subvalues hv1ops) hvR
  have hv2R : v2 ∈ subvalues R :=
    subvalues_trans (operand_mem_subvalues hv2ops) hvR
  have hsub1 : ∀ u ∈ subvalues v1, u ∈ subvalues vnode :=
    subvalues_subset_of_operand hv1ops
  have hsub2 : ∀ u ∈ subvalues v2, u ∈ subvalues vnode :=
    subvalues_subset_of_operand hv2ops
  have hfresh1 : ∀ g ∈ i :: gray, ∀ u ∈ subvalues v1, Value.id u ≠ g := by
    intro g hg u hu
    rcases List.mem_cons.1 hg with rfl | hg2
    · have hne := operand_subtree_id_ne hcoh hvR hv1ops hu
      rw [hvid] at hne
      exact hne
    · exact hfresh g hg2 u (hsub1 u hu)
  have hfresh2 : ∀ g ∈ i :: gray, ∀ u ∈ subvalues v2, Value.id u ≠ g := by
    intro g hg u hu
    rcases List.mem_cons.1 hg with rfl | hg2
    · have hne := operand_subtree_id_ne hcoh hvR hv2ops hu
      rw [hvid] at hne
      exact hne
    · exact hfresh g hg2 u (hsub2 u hu)
  have hinv1 : DFSInv R (i :: gray) (i :: visited) order := by
    refine ⟨?_, hok, hnd, hels⟩
    intro j
    constructor
    · intro hj
      rcases List.mem_cons.1 hj with rfl | hj2
      · exact Or.inr (by simp)
      · rcases (hviz j).1 hj2 with h | h
        · exact Or.inl h
        · exact Or.inr (List.mem_cons_of_mem _ h)
    · intro hj
      rcases hj with h | h
      · exact List.mem_cons_of_mem _ ((hviz j).2 (Or.inl h))
      · rcases List.mem_cons.1 h with rfl | h2
        · exact List.mem_cons_self _ _
        · exact List.mem_cons_of_mem _ ((hviz j).2 (Or.inr h2))
  obtain ⟨⟨d1, hd1⟩, hinv2, hcomp1, hnew1⟩ :=
    sp1 (i :: visited) order (i :: gray) hinv1 hfresh1
  rw [← hp1] at hd1 hinv2 hcomp1 hnew1
  obtain ⟨⟨d2, hd2⟩, hinv3, hcomp2, hnew2⟩ :=
    sp2 p1.1 p1.2 (i :: gray) hinv2 hfresh2
  rw [← hp2] at hd2 hinv3 hcomp2 hnew2
  obtain ⟨hviz3, hok3, hnd3, hels3⟩ := hinv3
  have hii : i ∉ ids p2.2 := by
    intro hi2
    rcases hnew2 i hi2 with hi1 | ⟨u, hu, hui⟩
    · rcases hnew1 i hi1 with hi0 | ⟨u, hu, hui⟩
      · exact hmem ((hviz i).2 (Or.inl hi0))
      · exact hfresh1 i (by simp) u hu hui
    · exact hfresh2 i (by simp) u hu hui
  have hids : ids (p2.2 ++ [vnode]) = ids p2.2 ++ [i] := by
    rw [ids_append]
    simp [ids, hvid]
  have hsubids1 : ∀ j ∈ ids p1.2, j ∈ ids p2.2 := by
    intro j hj
    rw [hd2, ids_append]
    exact List.mem_append_left _ hj
  refine ⟨⟨d1 ++ d2 ++ [vnode], by rw [hd2, hd1]; simp⟩, ?_, ?_, ?_⟩
  · refine ⟨?_, ?_, ?_, ?_⟩
    · intro j
      rw [hids]
      constructor
      · intro hj
        rcases (hviz3 j).1 hj with h | h
        · exact Or.inl (List.mem_append_left _ h)
        · rcases List.mem_cons.1 h with rfl | h2
          · exact Or.inl (List.mem_append_right _ (by simp))
          · exact Or.inr h2
      · intro hj
        apply (hviz3 j).2
        rcases hj with h | h
        · rcases List.mem_append.1 h with h2 | h2
          · exact Or.inl h2
          · simp at h2
            subst h2
            exact Or.inr (by simp)
        · exact Or.inr (List.mem_cons_of_mem _ h)
    · apply okOrder_append _ _ hok3
      intro u hu
      rw [hops] at hu
      rcases List.mem_cons.1 hu with rfl | hu2
      · exact hsubids1 _ (hcomp1 u (self_mem_subvalues u))
      · simp at hu2
        subst hu2
        exact hcomp2 u (self_mem_subvalues u)
    · rw [hids]
      refine List.nodup_append.2 ⟨hnd3, by simp, ?_⟩
      intro a ha hb
      simp at hb
      subst hb
      exact hii ha
    · intro w hw
      rcases List.mem_append.1 hw with h | h
      · exact hels3 w h
      · simp at h
        subst h
        exact hvR
  · intro u hu
    rw [hsubv] at hu
    rcases List.mem_cons.1 hu with rfl | hu2
    · rw [hids, hvid]
      exact List.mem_append_right _ (by simp)
    · rw [hids]
      rcases List.mem_append.1 hu2 with h | h
      · exact List.mem_append_left _ (hsubids1 _ (hcomp1 u h))
      · exact List.mem_append_left _ (hcomp2 u h)
  · intro j hj
    rw [hids] at hj
    rcases List.mem_append.1 hj with h | h
    · rcases hnew2 j h with h1 | ⟨u, hu, hui⟩
      · rcases hnew1 j h1 with h0 | ⟨u, hu, hui⟩
        · exact Or.inl h0
        · exact Or.inr ⟨u, hsub1 u hu, hui⟩
      · exact Or.inr ⟨u, hsub2 u hu, hui⟩
    · simp at h
      subst h
      exact Or.inr ⟨vnode, self_mem_subvalues vnode, hvid⟩

/-- Helper for a freshly visited node with one operand (the `Tanh` arm). -/
theorem bt_un {R : Value} (hcoh : Coherent R) (i : Nat) (v1 vnode : Value)
    (hvid : Value.id vnode = i)
    (hops : operands vnode = [v1])
    (hsubv : subvalues vnode = vnode :: subvalues v1)
    (hvR : vnode ∈ subvalues R)
    (sp1 : BTSpec R v1)
    (visited : List Nat) (order : List Value) (gray : List Nat)
    (hinv : DFSInv R gray visited order)
    (hfresh : ∀ g ∈ gray, ∀ u ∈ subvalues vnode, Value.id u ≠ g)
    (hmem : i ∉ visited)
    (p1 : List Nat × List Value)
    (hp1 : p1 = buildTopo v1 (i :: visited) order) :
    (∃ Δ, p1.2 ++ [vnode] = order ++ Δ) ∧
    DFSInv R gray p1.1 (p1.2 ++ [vnode]) ∧
    (∀ u ∈ subvalues vnode, Value.id u ∈ ids (p1.2 ++ [vnode])) ∧
    (∀ j ∈ ids (p1.2 ++ [vnode]),
      j ∈ ids order ∨ ∃ u ∈ subvalues vnode, Value.id u = j) := by
  obtain ⟨hviz, hok, hnd, hels⟩ := hinv
  have hv1ops : v1 ∈ operands vnode := by rw [hops]; simp
  have hv1R : v1 ∈ subvalues R :=
    subvalues_trans (operand_mem_subvalues hv1ops) hvR
  have hsub1 : ∀ u ∈ subvalues v1, u ∈ subvalues vnode :=
    subvalues_subset_of_operand hv1ops
  have hfresh1 : ∀ g ∈ i :: gray, ∀ u ∈ subvalues v1, Value.id u ≠ g := by
    intro g hg u hu
    rcases List.mem_cons.1 hg with rfl | hg2
    · have hne := operand_subtree_id_ne hcoh hvR hv1ops hu
      rw [hvid] at hne
      exact hne
    · exact hfresh g hg2 u (hsub1 u hu)
  have hinv1 : DFSInv R (i :: gray) (i :: visited) order := by
    refine ⟨?_, hok, hnd, hels⟩
    intro j
    constructor
    · intro hj
      rcases List.mem_cons.1 hj with rfl | hj2
      · exact Or.inr (by simp)
      · rcases (hviz j).1 hj2 with h | h
        · exact Or.inl h
        · exact Or.inr (List.mem_cons_of_mem _ h)
    · intro hj
      rcases hj with h | h
      · exact List.mem_cons_of_mem _ ((hviz j).2 (Or.inl h))
      · rcases List.mem_cons.1 h with rfl | h2
        · exact List.mem_cons_self _ _
        · exact List.mem_cons_of_mem _ ((hviz j).2 (Or.inr h2))
  obtain ⟨⟨d1, hd1⟩, hinv2, hcomp1, hnew1⟩ :=
    sp1 (i :: visited) order (i :: gray) hinv1 hfresh1
  rw [← hp1] at hd1 hinv2 hcomp1 hnew1
  obtain ⟨hviz2, hok2, hnd2, hels2⟩ := hinv2
  have hii : i ∉ ids p1.2 := by
    intro hi1
    rcases hnew1 i hi1 with hi0 | ⟨u, hu, hui⟩
    · exact hmem ((hviz i).2 (Or.inl hi0))
    · exact hfresh1 i (by simp) u hu hui
  have hids : ids (p1.2 ++ [vnode]) = ids p1.2 ++ [i] := by
    rw [ids_append]
    simp [ids, hvid]
  refine ⟨⟨d1 ++ [vnode], by rw [hd1]; simp⟩, ?_, ?_, ?_⟩
  · refine ⟨?_, ?_, ?_, ?_⟩
    · intro j
      rw [hids]
      constructor
      · intro hj
        rcases (hviz2 j).1 hj with h | h
        · exact Or.inl (List.mem_append_left _ h)
        · rcases List.mem_cons.1 h with rfl | h2
          · exact Or.inl (List.mem_append_right _ (by simp))
          · exact Or.inr h2
      · intro hj
        apply (hviz2 j).2
        rcases hj with h | h
        · rcases List.mem_append.1 h with h2 | h2
          · exact Or.inl h2
          · simp at h2
            subst h2
            exact Or.inr (by simp)
        · exact Or.inr (List.mem_cons_of_mem _ h)
    · apply okOrder_append _ _ hok2
      intro u hu
      rw [hops] at hu
      simp at hu
      subst hu
      exact hcomp1 u (self_mem_subvalues u)
    · rw [hids]
      refine List.nodup_append.2 ⟨hnd2, by simp, ?_⟩
      intro a ha hb
      simp at hb
      subst hb
      exact hii ha
    · intro w hw
      rcases List.mem_append.1 hw with h | h
      · exact hels2 w h
      · simp at h
        subst h
        exact hvR
  · intro u hu
    rw [hsubv] at hu
    rcases List.mem_cons.1 hu with rfl | hu2
    · rw [hids, hvid]
      exact List.mem_append_right _ (by simp)
    · rw [hids]
      exact List.mem_append_left _ (hcomp1 u hu2)
  · intro j hj
    rw [hids] at hj
    rcases List.mem_append.1 hj with h | h
    · rcases hnew1 j h with h0 | ⟨u, hu, hui⟩
      · exact Or.inl h0
      · exact Or.inr ⟨u, hsub1 u hu, hui⟩
    · simp at h
      subst h
      exact Or.inr ⟨vnode, self_mem_subvalues vnode, hvid⟩

/-- Helper for a freshly visited leaf (`None` arm). -/
theorem bt_leaf {R : Value} (i : Nat) (vnode : Value)
    (hvid : Value.id vnode = i)
    (hops : operands vnode = [])
    (hsubv : subvalues vnode = [vnode])
    (hvR : vnode ∈ subvalues R)
    (visited : List Nat) (order : List Value) (gray : List Nat)
    (hinv : DFSInv R gray visited order)
    (hmem : i ∉ visited) :
    (∃ Δ, order ++ [vnode] = order ++ Δ) ∧
    DFSInv R gray (i :: visited) (order ++ [vnode]) ∧
    (∀ u ∈ subvalues vnode, Value.id u ∈ ids (order ++ [vnode])) ∧
    (∀ j ∈ ids (order ++ [vnode]),
      j ∈ ids order ∨ ∃ u ∈ subvalues vnode, Value.id u = j) := by
  obtain ⟨hviz, hok, hnd, hels⟩ := hinv
  have hii : i ∉ ids order := fun h => hmem ((hviz i).2 (Or.inl h))
  have hids : ids (order ++ [vnode]) = ids order ++ [i] := by
    rw [ids_append]
    simp [ids, hvid]
  refine ⟨⟨[vnode], rfl⟩, ⟨?_, ?_, ?_, ?_⟩, ?_, ?_⟩
  · intro j
    rw [hids]
    constructor
    · intro hj
      rcases List.mem_cons.1 hj with rfl | hj2
      · exact Or.inl (List.mem_append_right _ (by simp))
      · rcases (hviz j).1 hj2 with h | h
        · exact Or.inl (List.mem_append_left _ h)
        · exact Or.inr h
    · intro hj
      rcases hj with h | h
      · rcases List.mem_append.1 h with h2 | h2
        · exact List.mem_cons_of_mem _ ((hviz j).2 (Or.inl h2))
        · simp at h2
          subst h2
          exact List.mem_cons_self _ _
      · exact List.mem_cons_of_mem _ ((hviz j).2 (Or.inr h))
  · apply okOrder_append _ _ hok
    intro u hu
    rw [hops] at hu
    simp at hu
  · rw [hids]
    refine List.nodup_append.2 ⟨hnd, by simp, ?_⟩
    intro a ha hb
    simp at hb
    subst hb
    exact hii ha
  · intro w hw
    rcases List.mem_append.1 hw with h | h
    · exact hels w h
    · simp at h
      subst h
      exact hvR
  · intro u hu
    rw [hsubv] at hu
    simp at hu
    subst hu
    rw [hids, hvid]
    exact List.mem_append_right _ (by simp)
  · intro j hj
    rw [hids] at hj
    rcases List.mem_append.1 hj with h | h
    · exact Or.inl h
    · simp at h
      subst h
      exact Or.inr ⟨vnode, by rw [hsubv]; simp, hvid⟩

/-- One `build_topo` call satisfies its specification on every node of a
coherent graph. -/
theorem buildTopo_spec {R : Value} (hcoh : Coherent R) :
    ∀ v : Value, v ∈ subvalues R → BTSpec R v := by
  intro v
  induction v with
  | None i =>
      intro hv visited order gray hinv hfresh
      by_cases hmem : i ∈ visited
      · have hbt : buildTopo (Value.None i) visited order = (visited, order) := by
          simp [buildTopo, hmem]
        rw [hbt]
        exact bt_visited hcoh hv visited order gray hinv hfresh hmem
      · have hbt : buildTopo (Value.None i) visited order
            = (i :: visited, order ++ [Value.None i]) := by
          simp [buildTopo, hmem]
        rw [hbt]
        exact bt_leaf i (Value.None i) rfl rfl rfl hv visited order gray hinv hmem
  | Plus i v1 v2 ih1 ih2 =>
      intro hv visited order gray hinv hfresh
      have hv1R : v1 ∈ subvalues R :=
        subvalues_trans (operand_mem_subvalues
          (show v1 ∈ operands (Value.Plus i v1 v2) by simp [operands])) hv
      have hv2R : v2 ∈ subvalues R :=
        subvalues_trans (operand_mem_subvalues
          (show v2 ∈ operands (Value.Plus i v1 v2) by simp [operands])) hv
      by_cases hmem : i ∈ visited
      · have hbt : buildTopo (Value.Plus i v1 v2) visited order = (visited, order) := by
          simp [buildTopo, hmem]
        rw [hbt]
        exact bt_visited hcoh hv visited order gray hinv hfresh hmem
      · have hbt : buildTopo (Value.Plus i v1 v2) visited order
            = ((buildTopo v2 (buildTopo v1 (i :: visited) order).1
                  (buildTopo v1 (i :: visited) order).2).1,
               (buildTopo v2 (buildTopo v1 (i :: visited) order).1
                  (buildTopo v1 (i :: visited) order).2).2
                 ++ [Value.Plus i v1 v2]) := by
          simp [buildTopo, hmem]
        rw [hbt]
        exact bt_bin hcoh i v1 v2 (Value.Plus i v1 v2) rfl rfl rfl hv
          (ih1 hv1R) (ih2 hv2R) visited order gray hinv hfresh hmem _ _ rfl rfl
  | Mul i v1 v2 ih1 ih2 =>
      intro hv visited order gray hinv hfresh
      have hv1R : v1 ∈ subvalues R :=
        subvalues_trans (operand_mem_subvalues
          (show v1 ∈ operands (Value.Mul i v1 v2) by simp [operands])) hv
      have hv2R : v2 ∈ subvalues R :=
        subvalues_trans (operand_mem_subvalues
          (show v2 ∈ operands (Value.Mul i v1 v2) by simp [operands])) hv
      by_cases hmem : i ∈ visited
      · have hbt : buildTopo (Value.Mul i v1 v2) visited order = (visited, order) := by
          simp [buildTopo, hmem]
        rw [hbt]
        exact bt_visited hcoh hv visited order gray hinv hfresh hmem
      · have hbt : buildTopo (Value.Mul i v1 v2) visited order
            = ((buildTopo v2 (buildTopo v1 (i :: visited) order).1
                  (buildTopo v1 (i :: visited) order).2).1,
               (buildTopo v2 (buildTopo v1 (i :: visited) order).1
                  (buildTopo v1 (i :: visited) order).2).2
                 ++ [Value.Mul i v1 v2]) := by
          simp [buildTopo, hmem]
        rw [hbt]
        exact bt_bin hcoh i v1 v2 (Value.Mul i v1 v2) rfl rfl rfl hv
          (ih1 hv1R) (ih2 hv2R) visited order gray hinv hfresh hmem _ _ rfl rfl
  | Tanh i v1 ih1 =>
      intro hv visited order gray hinv hfresh
      have hv1R : v1 ∈ subvalues R :=
        subvalues_trans (operand_mem_subvalues
          (show v1 ∈ operands (Value.Tanh i v1) by simp [operands])) hv
      by_cases hmem : i ∈ visited
      · have hbt : buildTopo (Value.Tanh i v1) visited order = (visited, order) := by
          simp [buildTopo, hmem]
        rw [hbt]
        exact bt_visited hcoh hv visited order gray hinv hfresh hmem
      · have hbt : buildTopo (Value.Tanh i v1) visited order
            = ((buildTopo v1 (i :: visited) order).1,
               (buildTopo v1 (i :: visited) order).2 ++ [Value.Tanh i v1]) := by
          simp [buildTopo, hmem]
        rw [hbt]
        exact bt_un hcoh i v1 (Value.Tanh i v1) rfl rfl rfl hv
          (ih1 hv1R) visited order gray hinv hfresh hmem _ rfl
  | Sub i v1 v2 ih1 ih2 =>
      intro hv visited order gray hinv hfresh
      have hv1R : v1 ∈ subvalues R :=
        subvalues_trans (operand_mem_subvalues
          (show v1 ∈ operands (Value.Sub i v1 v2) by simp [operands])) hv
      have hv2R : v2 ∈ subvalues R :=
        subvalues_trans (operand_mem_subvalues
          (show v2 ∈ operands (Value.Sub i v1 v2) by simp [operands])) hv
      by_cases hmem : i ∈ visited
      · have hbt : buildTopo (Value.Sub i v1 v2) visited order = (visited, order) := by
          simp [buildTopo, hmem]
        rw [hbt]
        exact bt_visited hcoh hv visited order gray hinv hfresh hmem
      · have hbt : buildTopo (Value.Sub i v1 v2) visited order
            = ((buildTopo v2 (buildTopo v1 (i :: visited) order).1
                  (buildTopo v1 (i :: visited) order).2).1,
               (buildTopo v2 (buildTopo v1 (i :: visited) order).1
                  (buildTopo v1 (i :: visited) order).2).2
                 ++ [Value.Sub i v1 v2]) := by
          simp [buildTopo, hmem]
        rw [hbt]
        exact bt_bin hcoh i v1 v2 (Value.Sub i v1 v2) rfl rfl rfl hv
          (ih1 hv1R) (ih2 hv2R) visited order gray hinv hfresh hmem _ _ rfl rfl

/-- Full specification of `topological_order` on a coherent graph. -/
theorem topological_order_spec {root : Value} (hcoh : Coherent root) :
    (∀ u ∈ subvalues root, u ∈ topological_order root) ∧
    (∀ w ∈ topological_order root, w ∈ subvalues root) ∧
    OkOrder (topological_order root) ∧
    (ids (topological_order root)).Nodup := by
  have hinv0 : DFSInv root [] [] [] :=
    ⟨by simp [ids], okOrder_nil, by simp [ids], by simp⟩
  obtain ⟨hΔ, hinv, hcomp, hnew⟩ :=
    buildTopo_spec hcoh root (self_mem_subvalues root) [] [] [] hinv0 (by simp)
  obtain ⟨hviz, hok, hnd, hels⟩ := hinv
  refine ⟨?_, hels, hok, hnd⟩
  intro u hu
  have hid : Value.id u ∈ ids (topological_order root) := hcomp u hu
  obtain ⟨w, hw, hwid⟩ := List.mem_map.1 hid
  have heq : w = u := hcoh w (hels w hw) u hu hwid
  rw [heq] at hw
  exact hw

/-! ### Specification of node construction -/

theorem Value_new_spec (d : ℚ) (s : BuildState) :
    (Value_new d s).1 = s.counter ∧
    (Value_new d s).2.counter = s.counter + 1 ∧
    (Value_new d s).2.data s.counter = d ∧
    (Value_new d s).2.grad s.counter = 0 ∧
    (∀ j, j ≠ s.counter →
      (Value_new d s).2.data j = s.data j ∧ (Value_new d s).2.grad j = s.grad j) := by
  refine ⟨rfl, rfl, upd_same _ _ _, upd_same _ _ _, ?_⟩
  intro j hj
  exact ⟨upd_ne _ _ _ hj, upd_ne _ _ _ hj⟩

/-- C5: `add`, `mul`, `sub` and `tanh` each build a new node (fresh id,
distinct from both operands) whose value is the arithmetic result on the
operands' current values — for `tanh`, `(e^{2x} - 1) / (e^{2x} + 1)` — whose
operation records the tag with the operand references, and whose grad cell is
initialized to 0; every other cell, in particular every cell of the operands,
is left untouched. -/
theorem builders_spec (fexp : ℚ → ℚ) (s : BuildState) (a b : Value)
    (ha : Value.id a < s.counter) (hb : Value.id b < s.counter) :
    ((Value.add a b s).1 = Value.Plus s.counter a b ∧
     ((Value.add a b s).2).data s.counter
        = s.data (Value.id a) + s.data (Value.id b) ∧
     ((Value.add a b s).2).grad s.counter = 0) ∧
    ((Value.mul a b s).1 = Value.Mul s.counter a b ∧
     ((Value.mul a b s).2).data s.counter
        = s.data (Value.id a) * s.data (Value.id b) ∧
     ((Value.mul a b s).2).grad s.counter = 0) ∧
    ((Value.sub a b s).1 = Value.Sub s.counter a b ∧
     ((Value.sub a b s).2).data s.counter
        = s.data (Value.id a) - s.data (Value.id b) ∧
     ((Value.sub a b s).2).grad s.counter = 0) ∧
    ((Value.tanh fexp a s).1 = Value.Tanh s.counter a ∧
     ((Value.tanh fexp a s).2).data s.counter
        = (fexp (2 * s.data (Value.id a)) - 1)
            / (fexp (2 * s.data (Value.id a)) + 1) ∧
     ((Value.tanh fexp a s).2).grad s.counter = 0) ∧
    (s.counter ≠ Value.id a ∧ s.counter ≠ Value.id b) ∧
    (∀ j, j ≠ s.counter →
      ((Value.add a b s).2).data j = s.data j ∧
      ((Value.add a b s).2).grad j = s.grad j ∧
      ((Value.mul a b s).2).data j = s.data j ∧
      ((Value.mul a b s).2).grad j = s.grad j ∧
      ((Value.sub a b s).2).data j = s.data j ∧
      ((Value.sub a b s).2).grad j = s.grad j ∧
      ((Value.tanh fexp a s).2).data j = s.data j ∧
      ((Value.tanh fexp a s).2).grad j = s.grad j) := by
  refine ⟨⟨rfl, upd_same _ _ _, upd_same _ _ _⟩,
    ⟨rfl, upd_same _ _ _, upd_same _ _ _⟩,
    ⟨rfl, upd_same _ _ _, upd_same _ _ _⟩,
    ⟨rfl, upd_same _ _ _, upd_same _ _ _⟩,
    ⟨by omega, by omega⟩, ?_⟩
  intro j hj
  exact ⟨upd_ne _ _ _ hj, upd_ne _ _ _ hj, upd_ne _ _ _ hj, upd_ne _ _ _ hj,
    upd_ne _ _ _ hj, upd_ne _ _ _ hj, upd_ne _ _ _ hj, upd_ne _ _ _ hj⟩

/-- Witness for C5: the builders applied to two leaves in a concrete state. -/
theorem builders_spec_witness :
    (Value.id (Value.None 1) < exState.counter ∧
     Value.id (Value.None 2) < exState.counter) ∧
    ((Value.add (Value.None 1) (Value.None 2) exState).2).data exState.counter
      = exState.data 1 + exState.data 2 :=
  ⟨⟨by decide, by decide⟩,
    (builders_spec (fun q => q) exState (Value.None 1) (Value.None 2)
      (by decide) (by decide)).1.2.1⟩

/-- C9: every construction draws the id `s.counter` and bumps the counter, so
ids are fresh and monotonically assigned; applying `mul` twice to the same
two operands yields two structurally distinct nodes with distinct ids but the
same stored value. -/
theorem id_fresh_monotone (fexp : ℚ → ℚ) (d : ℚ) (s : BuildState) (a b : Value)
    (ha : Value.id a < s.counter) (hb : Value.id b < s.counter) :
    (Value.id (Value.new d s).1 = s.counter ∧
     ((Value.new d s).2).counter = s.counter + 1) ∧
    (Value.id (Value.add a b s).1 = s.counter ∧
     ((Value.add a b s).2).counter = s.counter + 1) ∧
    (Value.id (Value.mul a b s).1 = s.counter ∧
     ((Value.mul a b s).2).counter = s.counter + 1) ∧
    (Value.id (Value.sub a b s).1 = s.counter ∧
     ((Value.sub a b s).2).counter = s.counter + 1) ∧
    (Value.id (Value.tanh fexp a s).1 = s.counter ∧
     ((Value.tanh fexp a s).2).counter = s.counter + 1) ∧
    (Value.id (Value.mul a b ((Value.mul a b s).2)).1
       ≠ Value.id (Value.mul a b s).1 ∧
     (Value.mul a b ((Value.mul a b s).2)).1 ≠ (Value.mul a b s).1 ∧
     ((Value.mul a b ((Value.mul a b s).2)).2).data
         (Value.id (Value.mul a b ((Value.mul a b s).2)).1)
       = ((Value.mul a b ((Value.mul a b s).2)).2).data
           (Value.id (Value.mul a b s).1)) := by
  refine ⟨⟨rfl, rfl⟩, ⟨rfl, rfl⟩, ⟨rfl, rfl⟩, ⟨rfl, rfl⟩, ⟨rfl, rfl⟩,
    ?_, ?_, ?_⟩
  · show s.counter + 1 ≠ s.counter
    omega
  · intro he
    have : Value.id (Value.mul a b ((Value.mul a b s).2)).1
        = Value.id (Value.mul a b s).1 := congrArg Value.id he
    simp only [Value.mul, Value_new, get_id, Value.id_Mul] at this
    omega
  · show upd ((Value.mul a b s).2).data (s.counter + 1)
        (((Value.mul a b s).2).data (Value.id a)
          * ((Value.mul a b s).2).data (Value.id b)) (s.counter + 1)
      = upd ((Value.mul a b s).2).data (s.counter + 1)
        (((Value.mul a b s).2).data (Value.id a)
          * ((Value.mul a b s).2).data (Value.id b)) s.counter
    rw [upd_same, upd_ne _ _ _ (by omega : s.counter ≠ s.counter + 1)]
    show ((Value.mul a b s).2).data (Value.id a)
        * ((Value.mul a b s).2).data (Value.id b)
      = upd s.data s.counter (s.data (Value.id a) * s.data (Value.id b)) s.counter
    rw [upd_same,
      show ((Value.mul a b s).2).data (Value.id a)
          = upd s.data s.counter (s.data (Value.id a) * s.data (Value.id b))
              (Value.id a) from rfl,
      show ((Value.mul a b s).2).data (Value.id b)
          = upd s.data s.counter (s.data (Value.id a) * s.data (Value.id b))
              (Value.id b) from rfl,
      upd_ne _ _ _ (by omega : Value.id a ≠ s.counter),
      upd_ne _ _ _ (by omega : Value.id b ≠ s.counter)]

/-- Witness for C9: two leaves under the concrete state. -/
theorem id_fresh_monotone_witness :
    (Value.id (Value.None 1) < exState.counter ∧
     Value.id (Value.None 2) < exState.counter) ∧
    Value.id (Value.mul (Value.None 1) (Value.None 2)
        ((Value.mul (Value.None 1) (Value.None 2) exState).2)).1
      ≠ Value.id (Value.mul (Value.None 1) (Value.None 2) exState).1 :=
  ⟨⟨by decide, by decide⟩,
    (id_fresh_monotone (fun q => q) 5 exState (Value.None 1) (Value.None 2)
      (by decide) (by decide)).2.2.2.2.2.1⟩

/-- C6: `Neuron::apply` on an input sequence whose length differs from the
weight count reports the mismatch (modelled as `none`): no node is returned
and nothing is truncated or padded. -/
theorem neuron_apply_length_mismatch (fexp : ℚ → ℚ) (n : Neuron)
    (x : List Value) (s : BuildState) (h : x.length ≠ n.weights.length) :
    Neuron.apply fexp n x s = none := by
  unfold Neuron.apply
  rw [if_neg h]

/-- Witness for C6: a three-weight neuron applied to two inputs. -/
theorem neuron_apply_length_mismatch_witness :
    [Value.None 5, Value.None 6].length ≠ exNeuron.weights.length ∧
    Neuron.apply (fun q => q) exNeuron [Value.None 5, Value.None 6] initState
      = none :=
  ⟨by decide,
    neuron_apply_length_mismatch (fun q => q) exNeuron
      [Value.None 5, Value.None 6] initState (by decide)⟩

/-- C3: after `calculate_grad(root)` the root's grad cell holds exactly the
seed 1.0, whatever it held before the call: the seed is written first and the
propagation loop only ever writes into operand cells, which in a coherent
(acyclic) graph never alias the root. -/
theorem calculate_grad_seed (ftanh : ℚ → ℚ) (root : Value) (s : BuildState)
    (hcoh : Coherent root) :
    (calculate_grad ftanh root s).grad (Value.id root) = 1 := by
  have h : ∀ v ∈ reverse_topological_order root, ∀ u ∈ operands v,
      Value.id u ≠ Value.id root := by
    intro v hv u hu he
    have hvS : v ∈ subvalues root :=
      topological_order_mem_subvalues (List.mem_reverse.1 hv)
    have huS : u ∈ subvalues root :=
      subvalues_trans (operand_mem_subvalues hu) hvS
    have heq : u = root := hcoh u huS root (self_mem_subvalues root) he
    rw [heq] at hu
    have h1 := size_lt_of_operand hu
    have h2 := size_le_of_mem_subvalues hvS
    omega
  show ((reverse_topological_order root).foldl (gradStep ftanh)
      { s with grad := upd s.grad (Value.id root) 1 }).grad (Value.id root) = 1
  rw [foldl_gradStep_grad_eq ftanh _ _ h]
  exact upd_same _ _ _

/-- Witness for C3: the shared-leaf DAG, starting from a state with nonzero
grads everywhere. -/
theorem calculate_grad_seed_witness :
    Coherent exG ∧
    (calculate_grad (fun q => q) exG exState).grad (Value.id exG) = 1 :=
  ⟨by decide, calculate_grad_seed (fun q => q) exG exState (by decide)⟩

/-- C8: `calculate_grad(root)` mutates only grad cells of nodes reachable
from `root`: every `data` cell and the id counter are untouched, and the grad
cell of any id outside the reachable set is untouched. (Ids and operations
are immutable in the embedding, as in the Rust struct, where only `data` and
`grad` sit in `RefCell`s.) -/
theorem calculate_grad_frame (ftanh : ℚ → ℚ) (root : Value) (s : BuildState)
    (j : Nat) (hj : j ∉ ids (subvalues root)) :
    (calculate_grad ftanh root s).data = s.data ∧
    (calculate_grad ftanh root s).counter = s.counter ∧
    (calculate_grad ftanh root s).grad j = s.grad j := by
  refine ⟨?_, ?_, ?_⟩
  · show ((reverse_topological_order root).foldl (gradStep ftanh)
        { s with grad := upd s.grad (Value.id root) 1 }).data = s.data
    rw [foldl_gradStep_data]
  · show ((reverse_topological_order root).foldl (gradStep ftanh)
        { s with grad := upd s.grad (Value.id root) 1 }).counter = s.counter
    rw [foldl_gradStep_counter]
  · have h : ∀ v ∈ reverse_topological_order root, ∀ u ∈ operands v,
        Value.id u ≠ j := by
      intro v hv u hu he
      apply hj
      rw [← he]
      have hvS : v ∈ subvalues root :=
        topological_order_mem_subvalues (List.mem_reverse.1 hv)
      have huS : u ∈ subvalues root :=
        subvalues_trans (operand_mem_subvalues hu) hvS
      exact List.mem_map.2 ⟨u, huS, rfl⟩
    show ((reverse_topological_order root).foldl (gradStep ftanh)
        { s with grad := upd s.grad (Value.id root) 1 }).grad j = s.grad j
    rw [foldl_gradStep_grad_eq ftanh _ _ h]
    refine upd_ne _ _ _ ?_
    intro he
    apply hj
    rw [he]
    exact List.mem_map.2 ⟨root, self_mem_subvalues root, rfl⟩

/-- Witness for C8: id 42 is not reachable from the shared-leaf DAG, and its
cells are untouched. -/
theorem calculate_grad_frame_witness :
    (42 ∉ ids (subvalues exG)) ∧
    (calculate_grad (fun q => q) exG exState).data = exState.data ∧
    (calculate_grad (fun q => q) exG exState).counter = exState.counter ∧
    (calculate_grad (fun q => q) exG exState).grad 42 = exState.grad 42 :=
  ⟨by decide, calculate_grad_frame (fun q => q) exG exState 42 (by decide)⟩

/-- C1: `calculate_grad` walks the reverse topological order applying one
`gradStep` per node, and `gradStep` implements exactly the local derivative
table, accumulating with `+=` into each operand's grad cell and writing
nothing else: for `Plus(a,b)` both operands gain `v.grad`; for `Sub(a,b)`,
`a` gains `v.grad` and `b` gains `-v.grad`; for `Mul(a,b)`, `a` gains
`v.grad * b.value` and `b` gains `v.grad * a.value`; for `Tanh(a)`, `a`
gains `v.grad * (1 - tanh(a.value)^2)`; for `None` nothing is written. -/
theorem calculate_grad_applies_local_rules (ftanh : ℚ → ℚ) (root : Value)
    (s : BuildState) (i : Nat) (a b : Value)
    (hai : Value.id a ≠ i) (hbi : Value.id b ≠ i)
    (hab : Value.id a ≠ Value.id b) :
    (calculate_grad ftanh root s
      = (reverse_topological_order root).foldl (gradStep ftanh)
          { s with grad := upd s.grad (Value.id root) 1 }) ∧
    (gradStep ftanh s (Value.None i) = s) ∧
    ((gradStep ftanh s (Value.Plus i a b)).grad (Value.id a)
        = s.grad (Value.id a) + s.grad i ∧
     (gradStep ftanh s (Value.Plus i a b)).grad (Value.id b)
        = s.grad (Value.id b) + s.grad i ∧
     ∀ j, j ≠ Value.id a → j ≠ Value.id b →
       (gradStep ftanh s (Value.Plus i a b)).grad j = s.grad j) ∧
    ((gradStep ftanh s (Value.Sub i a b)).grad (Value.id a)
        = s.grad (Value.id a) + s.grad i ∧
     (gradStep ftanh s (Value.Sub i a b)).grad (Value.id b)
        = s.grad (Value.id b) + (- s.grad i) ∧
     ∀ j, j ≠ Value.id a → j ≠ Value.id b →
       (gradStep ftanh s (Value.Sub i a b)).grad j = s.grad j) ∧
    ((gradStep ftanh s (Value.Mul i a b)).grad (Value.id a)
        = s.grad (Value.id a) + s.grad i * s.data (Value.id b) ∧
     (gradStep ftanh s (Value.Mul i a b)).grad (Value.id b)
        = s.grad (Value.id b) + s.grad i * s.data (Value.id a) ∧
     ∀ j, j ≠ Value.id a → j ≠ Value.id b →
       (gradStep ftanh s (Value.Mul i a b)).grad j = s.grad j) ∧
    ((gradStep ftanh s (Value.Tanh i a)).grad (Value.id a)
        = s.grad (Value.id a)
            + s.grad i * (1 - (ftanh (s.data (Value.id a))) ^ 2) ∧
     ∀ j, j ≠ Value.id a →
       (gradStep ftanh s (Value.Tanh i a)).grad j = s.grad j) := by
  have hba : Value.id b ≠ Value.id a := Ne.symm hab
  have hia : i ≠ Value.id a := Ne.symm hai
  refine ⟨rfl, rfl, ⟨?_, ?_, ?_⟩, ⟨?_, ?_, ?_⟩, ⟨?_, ?_, ?_⟩, ⟨?_, ?_⟩⟩
  · show upd (upd s.grad (Value.id a) (s.grad (Value.id a) + s.grad i))
        (Value.id b) _ (Value.id a) = _
    rw [upd_ne _ _ _ hab, upd_same]
  · show upd (upd s.grad (Value.id a) (s.grad (Value.id a) + s.grad i))
        (Value.id b)
        (upd s.grad (Value.id a) (s.grad (Value.id a) + s.grad i) (Value.id b)
          + upd s.grad (Value.id a) (s.grad (Value.id a) + s.grad i) i)
        (Value.id b) = _
    rw [upd_same, upd_ne _ _ _ hba, upd_ne _ _ _ hia]
  · intro j hja hjb
    show upd (upd s.grad (Value.id a) _) (Value.id b) _ j = s.grad j
    rw [upd_ne _ _ _ hjb, upd_ne _ _ _ hja]
  · show upd (upd s.grad (Value.id a) (s.grad (Value.id a) + s.grad i))
        (Value.id b) _ (Value.id a) = _
    rw [upd_ne _ _ _ hab, upd_same]
  · show upd (upd s.grad (Value.id a) (s.grad (Value.id a) + s.grad i))
        (Value.id b)
        (upd s.grad (Value.id a) (s.grad (Value.id a) + s.grad i) (Value.id b)
          + (- upd s.grad (Value.id a) (s.grad (Value.id a) + s.grad i) i))
        (Value.id b) = _
    rw [upd_same, upd_ne _ _ _ hba, upd_ne _ _ _ hia]
  · intro j hja hjb
    show upd (upd s.grad (Value.id a) _) (Value.id b) _ j = s.grad j
    rw [upd_ne _ _ _ hjb, upd_ne _ _ _ hja]
  · show upd (upd s.grad (Value.id a)
        (s.grad (Value.id a) + s.grad i * s.data (Value.id b)))
        (Value.id b) _ (Value.id a) = _
    rw [upd_ne _ _ _ hab, upd_same]
  · show upd (upd s.grad (Value.id a)
        (s.grad (Value.id a) + s.grad i * s.data (Value.id b)))
        (Value.id b)
        (upd s.grad (Value.id a)
            (s.grad (Value.id a) + s.grad i * s.data (Value.id b)) (Value.id b)
          + upd s.grad (Value.id a)
              (s.grad (Value.id a) + s.grad i * s.data (Value.id b)) i
            * s.data (Value.id a))
        (Value.id b) = _
    rw [upd_same, upd_ne _ _ _ hba, upd_ne _ _ _ hia]
  · intro j hja hjb
    show upd (upd s.grad (Value.id a) _) (Value.id b) _ j = s.grad j
    rw [upd_ne _ _ _ hjb, upd_ne _ _ _ hja]
  · exact upd_same _ _ _
  · intro j hja
    exact upd_ne _ _ _ hja

/-- Witness for C1: the local rules at a concrete `Plus` node over the
concrete state. -/
theorem calculate_grad_applies_local_rules_witness :
    (Value.id (Value.None 1) ≠ 3 ∧ Value.id (Value.None 2) ≠ 3 ∧
     Value.id (Value.None 1) ≠ Value.id (Value.None 2)) ∧
    (gradStep (fun q => q) exState (Value.Plus 3 (Value.None 1) (Value.None 2))).grad 1
      = exState.grad 1 + exState.grad 3 :=
  ⟨⟨by decide, by decide, by decide⟩,
    (calculate_grad_applies_local_rules (fun q => q) (Value.None 1) exState 3
      (Value.None 1) (Value.None 2) (by decide) (by decide) (by decide)).2.2.1.1⟩

/-- C4: the end-to-end scenario `a = leaf(-2); b = leaf(3); d = mul(a,b);
e = add(a,b); f = mul(d,e)` has forward values `d = -6`, `e = 1`, `f = -6`
and, after `calculate_grad(f)` starting from all-zero grads, gradients
`d = 1`, `e = -6`, `a = -3`, `b = -8`: the two shared leaves accumulate the
sum of the contributions of both of their consumers. -/
theorem end_to_end_scenario :
    ∀ ftanh : ℚ → ℚ,
      (calculate_grad ftanh exF.1 exF.2).data (Value.id exD.1) = -6 ∧
      (calculate_grad ftanh exF.1 exF.2).data (Value.id exE.1) = 1 ∧
      (calculate_grad ftanh exF.1 exF.2).data (Value.id exF.1) = -6 ∧
      (calculate_grad ftanh exF.1 exF.2).grad (Value.id exD.1) = 1 ∧
      (calculate_grad ftanh exF.1 exF.2).grad (Value.id exE.1) = -6 ∧
      (calculate_grad ftanh exF.1 exF.2).grad (Value.id exA.1) = -3 ∧
      (calculate_grad ftanh exF.1 exF.2).grad (Value.id exB.1) = -8 := by
  intro ftanh
  rw [calculate_grad_congr ftanh (fun _ => 0) exF.1 exF.2 (by decide)]
  exact ⟨by decide, by decide, by decide, by decide, by decide, by decide,
    by decide⟩

/-- C2: on a coherent graph, `topological_order(root)` contains every node
reachable from `root` via operand edges, contains only such nodes, and places
every node strictly after all of its operands: the ids of the operands of the
element at index `i` all occur among the ids of the first `i` elements. -/
theorem topological_order_sound_complete (root : Value) (hcoh : Coherent root) :
    (∀ u ∈ subvalues root, u ∈ topological_order root) ∧
    (∀ w ∈ topological_order root, w ∈ subvalues root) ∧
    OkOrder (topological_order root) :=
  ⟨(topological_order_spec hcoh).1, (topological_order_spec hcoh).2.1,
    (topological_order_spec hcoh).2.2.1⟩

/-- Witness for C2: the shared-leaf DAG. -/
theorem topological_order_sound_complete_witness :
    Coherent exG ∧
    (∀ u ∈ subvalues exG, u ∈ topological_order exG) ∧
    (∀ w ∈ topological_order exG, w ∈ subvalues exG) ∧
    OkOrder (topological_order exG) :=
  ⟨by decide, topological_order_sound_complete exG (by decide)⟩

/-- C10: on a coherent graph the sequence returned by `topological_order`
has pairwise distinct ids and still contains every reachable node, so each
reachable node appears exactly once even when it is shared by several
consumers. -/
theorem topological_order_nodup (root : Value) (hcoh : Coherent root) :
    (ids (topological_order root)).Nodup ∧
    (∀ u ∈ subvalues root, u ∈ topological_order root) :=
  ⟨(topological_order_spec hcoh).2.2.2, (topological_order_spec hcoh).1⟩

/-- Witness for C10: the diamond graph, whose two leaves are each reachable
along two paths. -/
theorem topological_order_nodup_witness :
    Coherent exG2 ∧
    (ids (topological_order exG2)).Nodup ∧
    (∀ u ∈ subvalues exG2, u ∈ topological_order exG2) :=
  ⟨by decide, topological_order_nodup exG2 (by decide)⟩

/-! ### Value of freshly built nodes -/

theorem Value_add_value (a b : Value) (st : BuildState) :
    (Value.add a b st).2.data (Value.id (Value.add a b st).1)
      = st.data (Value.id a) + st.data (Value.id b) :=
  upd_same _ _ _

theorem Value_add_data_ne (a b : Value) (st : BuildState) (j : Nat)
    (hj : j ≠ st.counter) :
    (Value.add a b st).2.data j = st.data j :=
  upd_ne _ _ _ hj

theorem Value_tanh_value (fexp : ℚ → ℚ) (a : Value) (st : BuildState) :
    (Value.tanh fexp a st).2.data (Value.id (Value.tanh fexp a st).1)
      = tanh_value fexp (st.data (Value.id a)) :=
  upd_same _ _ _

/-- Invariant of the accumulation loop of `Neuron::apply`: folding
`s = &s + &(xi * wi)` over a list of pairs of already-existing nodes adds the
sum of the products of their current values to the accumulator's value, keeps
every cell below the initial counter intact, and keeps the accumulator id
below the counter. -/
theorem neuron_fold_spec (s : BuildState) :
    ∀ (ps : List (Value × Value)) (a : Value × BuildState),
      (∀ p ∈ ps, Value.id p.1 < s.counter ∧ Value.id p.2 < s.counter) →
      s.counter ≤ a.2.counter →
      (∀ j, j < s.counter → a.2.data j = s.data j) →
      Value.id a.1 < a.2.counter →
      Value.id (ps.foldl neuronStep a).1 < (ps.foldl neuronStep a).2.counter ∧
      s.counter ≤ (ps.foldl neuronStep a).2.counter ∧
      (∀ j, j < s.counter → (ps.foldl neuronStep a).2.data j = s.data j) ∧
      (ps.foldl neuronStep a).2.data (Value.id (ps.foldl neuronStep a).1)
        = a.2.data (Value.id a.1)
          + (ps.map (fun p => s.data (Value.id p.1) * s.data (Value.id p.2))).sum := by
  intro ps
  induction ps with
  | nil =>
      intro a hps hctr hagree hacc
      exact ⟨hacc, hctr, hagree, by simp⟩
  | cons p t ih =>
      intro a hps hctr hagree hacc
      have hp := hps p (by simp)
      have h1 : Value.id (neuronStep a p).1 = a.2.counter + 1 := rfl
      have h2 : (neuronStep a p).2.counter = a.2.counter + 2 := rfl
      have h3 : ∀ j, j < s.counter → (neuronStep a p).2.data j = s.data j := by
        intro j hj
        show upd (upd a.2.data a.2.counter
            (a.2.data (Value.id p.1) * a.2.data (Value.id p.2)))
          (a.2.counter + 1) _ j = s.data j
        rw [upd_ne _ _ _ (by omega), upd_ne _ _ _ (by omega), hagree j hj]
      have h4 : (neuronStep a p).2.data (Value.id (neuronStep a p).1)
          = a.2.data (Value.id a.1)
            + s.data (Value.id p.1) * s.data (Value.id p.2) := by
        show upd (upd a.2.data a.2.counter
            (a.2.data (Value.id p.1) * a.2.data (Value.id p.2)))
          (a.2.counter + 1)
          (upd a.2.data a.2.counter
              (a.2.data (Value.id p.1) * a.2.data (Value.id p.2))
              (Value.id a.1)
            + upd a.2.data a.2.counter
                (a.2.data (Value.id p.1) * a.2.data (Value.id p.2))
                (Value.id (Value.Mul a.2.counter p.1 p.2)))
          (a.2.counter + 1) = _
        rw [upd_same, upd_ne _ _ _ (by omega : Value.id a.1 ≠ a.2.counter),
          Value.id_Mul, upd_same, hagree _ hp.1, hagree _ hp.2]
      obtain ⟨g1, g2, g3, g4⟩ := ih (neuronStep a p)
        (fun q hq => hps q (by simp [hq]))
        (by rw [h2]; omega) h3 (by rw [h1, h2]; omega)
      refine ⟨g1, g2, g3, ?_⟩
      show (t.foldl neuronStep (neuronStep a p)).2.data
          (Value.id (t.foldl neuronStep (neuronStep a p)).1) = _
      rw [g4, h4, List.map_cons, List.sum_cons, add_assoc]

/-- C7: on an input sequence matching the weight count, `Neuron::apply`
returns a single `tanh` node whose value is
`tanh(sum_i inputs[i].value * weights[i].value + bias.value)`, built by the
graph-builder operators (one product and one sum per weight, one bias sum,
one final `tanh`). -/
theorem neuron_apply_value (fexp : ℚ → ℚ) (n : Neuron) (x : List Value)
    (s : BuildState)
    (hlen : x.length = n.weights.length)
    (hx : ∀ v ∈ x, Value.id v < s.counter)
    (hw : ∀ v ∈ n.weights, Value.id v < s.counter)
    (hbias : Value.id n.bias < s.counter) :
    ∃ j u s2,
      Neuron.apply fexp n x s = some (Value.Tanh j u, s2) ∧
      s2.data j = tanh_value fexp
        (((x.zip n.weights).map
            (fun p => s.data (Value.id p.1) * s.data (Value.id p.2))).sum
          + s.data (Value.id n.bias)) := by
  obtain ⟨g1, g2, g3, g4⟩ := neuron_fold_spec s (x.zip n.weights) (Value.new 0 s)
    (fun q hq => ⟨hx q.1 (List.of_mem_zip hq).1, hw q.2 (List.of_mem_zip hq).2⟩)
    (by show s.counter ≤ s.counter + 1; omega)
    (by
      intro j hj
      show upd s.data s.counter 0 j = s.data j
      exact upd_ne _ _ _ (by omega))
    (by show s.counter < s.counter + 1; omega)
  refine ⟨Value.id (Value.tanh fexp
      (Value.add ((x.zip n.weights).foldl neuronStep (Value.new 0 s)).1 n.bias
        ((x.zip n.weights).foldl neuronStep (Value.new 0 s)).2).1
      (Value.add ((x.zip n.weights).foldl neuronStep (Value.new 0 s)).1 n.bias
        ((x.zip n.weights).foldl neuronStep (Value.new 0 s)).2).2).1,
    (Value.add ((x.zip n.weights).foldl neuronStep (Value.new 0 s)).1 n.bias
      ((x.zip n.weights).foldl neuronStep (Value.new 0 s)).2).1,
    (Value.tanh fexp
      (Value.add ((x.zip n.weights).foldl neuronStep (Value.new 0 s)).1 n.bias
        ((x.zip n.weights).foldl neuronStep (Value.new 0 s)).2).1
      (Value.add ((x.zip n.weights).foldl neuronStep (Value.new 0 s)).1 n.bias
        ((x.zip n.weights).foldl neuronStep (Value.new 0 s)).2).2).2, ?_, ?_⟩
  · unfold Neuron.apply
    rw [if_pos hlen]
    rfl
  · have e1 := Value_tanh_value fexp
      (Value.add ((x.zip n.weights).foldl neuronStep (Value.new 0 s)).1 n.bias
        ((x.zip n.weights).foldl neuronStep (Value.new 0 s)).2).1
      (Value.add ((x.zip n.weights).foldl neuronStep (Value.new 0 s)).1 n.bias
        ((x.zip n.weights).foldl neuronStep (Value.new 0 s)).2).2
    have e2 := Value_add_value
      ((x.zip n.weights).foldl neuronStep (Value.new 0 s)).1 n.bias
      ((x.zip n.weights).foldl neuronStep (Value.new 0 s)).2
    rw [e2, g4, g3 (Value.id n.bias) hbias] at e1
    have h0 : (Value.new 0 s).2.data (Value.id (Value.new 0 s).1) = (0 : ℚ) :=
      upd_same _ _ _
    rw [h0, zero_add] at e1
    exact e1

/-- Witness for C7: the three-weight neuron applied to three inputs over the
concrete state. -/
theorem neuron_apply_value_witness :
    ([Value.None 5, Value.None 6, Value.None 7].length
        = exNeuron.weights.length) ∧
    ∃ j u s2,
      Neuron.apply (fun q => q) exNeuron
          [Value.None 5, Value.None 6, Value.None 7] exState
        = some (Value.Tanh j u, s2) ∧
      s2.data j = tanh_value (fun q => q)
        ((([Value.None 5, Value.None 6, Value.None 7].zip
              exNeuron.weights).map
            (fun p => exState.data (Value.id p.1)
              * exState.data (Value.id p.2))).sum
          + exState.data (Value.id exNeuron.bias)) :=
  ⟨by decide,
    neuron_apply_value (fun q => q) exNeuron
      [Value.None 5, Value.None 6, Value.None 7] exState (by decide)
      (by decide) (by decide) (by decide)⟩
